import Mathlib

/-
Verification of the PPTParse geometry / media / config / mutation utilities
(`pptparse/utils.py`) against their natural-language specification.

Conventions of the embedding:
* OOXML `Length` (EMU) coordinates are integers in the source; arithmetic is
  carried out with Python's true division, which produces exact values on the
  inputs of interest.  Coordinates are embedded in `ℚ`, and the final
  `Length(...)` wrapping (Python `int` construction, truncation toward zero)
  is `pyInt` below.
* Fallible Python operations (division by zero, `min` of an empty list,
  `raise ValueError`) are embedded in `Except PyErr`.
* The file system touched by media extraction is an association list from
  path to blob content; blobs are numbers standing for byte strings.
-/

set_option maxRecDepth 4000

deriving instance DecidableEq for Except

/-- Error outcomes of the Python code.  `zeroDivisionError` and `valueError`
are the built-in exceptions actually raised in `utils.py`;
`degenerateGroupGeometry` is modelled from the spec: the spec's error
taxonomy (section 7) names a `DegenerateGroupGeometry` error, but no such
class exists anywhere in the source, so the constructor exists here only so
that its absence from the code's behaviour can be stated. -/
inductive PyErr where
  | zeroDivisionError
  | valueError
  | degenerateGroupGeometry
  deriving DecidableEq, Repr

/-- A bounding box with exact rational coordinates. -/
structure BoxQ where
  left : ℚ
  top : ℚ
  width : ℚ
  height : ℚ
  deriving DecidableEq, Repr

/-- A bounding box with integer (`Length`/EMU) coordinates, as stored in the
dictionaries returned by `parse_groupshape`. -/
structure BoxZ where
  left : ℤ
  top : ℤ
  width : ℤ
  height : ℤ
  deriving DecidableEq, Repr

/-- A `pptx` group shape: its own (absolute) frame plus the local bounding
boxes of its child shapes. -/
structure GroupShape where
  left : ℚ
  top : ℚ
  width : ℚ
  height : ℚ
  shapes : List BoxQ
  deriving DecidableEq, Repr

/-- Minimum of a nonempty list, as Python's `min` computes it. -/
def listMin1 : List ℚ → ℚ
  | [] => 0
  | x :: xs => xs.foldl min x

/-- Maximum of a nonempty list, as Python's `max` computes it. -/
def listMax1 : List ℚ → ℚ
  | [] => 0
  | x :: xs => xs.foldl max x

/-- Python `min`: raises `ValueError` on an empty sequence. -/
def pyMin (l : List ℚ) : Except PyErr ℚ :=
  if l.isEmpty then .error .valueError else .ok (listMin1 l)

/-- Python `max`: raises `ValueError` on an empty sequence. -/
def pyMax (l : List ℚ) : Except PyErr ℚ :=
  if l.isEmpty then .error .valueError else .ok (listMax1 l)

/-- Python true division: raises `ZeroDivisionError` on a zero divisor. -/
def qdiv (a b : ℚ) : Except PyErr ℚ :=
  if b = 0 then .error .zeroDivisionError else .ok (a / b)

/-- Python `int(...)` / `pptx.util.Length(...)` applied to a number:
truncation toward zero. -/
def pyInt (q : ℚ) : ℤ := q.num.tdiv q.den

/-- Wrap the four computed coordinates in `Length`, as the source does when
building each result dictionary. -/
def truncBox (b : BoxQ) : BoxZ :=
  ⟨pyInt b.left, pyInt b.top, pyInt b.width, pyInt b.height⟩

/-- Body of the `for sp in groupshape.shapes` loop of `parse_groupshape`
(utils.py lines 270-287), for one child: each coordinate is
`(sp.x - shape_top_left) * group_extent / shape_extent + group_top_left`,
divisions performed in source order (left, top, width, height). -/
def childBoxE (g : GroupShape) (L T sw sh : ℚ) (sp : BoxQ) : Except PyErr BoxQ := do
  let l ← qdiv ((sp.left - L) * g.width) sw
  let t ← qdiv ((sp.top - T) * g.height) sh
  let w ← qdiv (sp.width * g.width) sw
  let h ← qdiv (sp.height * g.height) sh
  pure ⟨l + g.left, t + g.top, w, h⟩

/-- Embedding of `parse_groupshape` (utils.py lines 237-289) before the final `Length`
truncation: computes the tight local union of the children's boxes
(min of lefts/tops, max of left+width / top+height) and projects every child
into the group's absolute frame. -/
def parse_groupshapeQ (g : GroupShape) : Except PyErr (List BoxQ) := do
  let L ← pyMin (g.shapes.map (·.left))
  let T ← pyMin (g.shapes.map (·.top))
  let R ← pyMax (g.shapes.map (fun sp => sp.left + sp.width))
  let B ← pyMax (g.shapes.map (fun sp => sp.top + sp.height))
  g.shapes.mapM (childBoxE g L T (R - L) (B - T))

/-- Embedding of `parse_groupshape`, with each coordinate wrapped in `Length` as in the
source. -/
def parse_groupshape (g : GroupShape) : Except PyErr (List BoxZ) :=
  (parse_groupshapeQ g).map (List.map truncBox)

/-- The projection formula exactly as displayed in spec section 4.1:
`scale_x = G_abs.width / G_local.width`, etc. -/
def specChildAbs (gAbs gLocal cLocal : BoxQ) : BoxQ :=
  let sx := gAbs.width / gLocal.width
  let sy := gAbs.height / gLocal.height
  { left := (cLocal.left - gLocal.left) * sx + gAbs.left
    top := (cLocal.top - gLocal.top) * sy + gAbs.top
    width := cLocal.width * sx
    height := cLocal.height * sy }

/-- The tight bounding union of a list of boxes: min of lefts/tops, max of
rights/bottoms (spec sections 4.1 and 8). -/
def tightUnion (bs : List BoxQ) : BoxQ :=
  let L := listMin1 (bs.map (·.left))
  let T := listMin1 (bs.map (·.top))
  let R := listMax1 (bs.map (fun b => b.left + b.width))
  let B := listMax1 (bs.map (fun b => b.top + b.height))
  ⟨L, T, R - L, B - T⟩

/-- The group's own absolute frame as a box. -/
def groupAbsBox (g : GroupShape) : BoxQ := ⟨g.left, g.top, g.width, g.height⟩

lemma pyMin_ok (l : List ℚ) (h : l ≠ []) : pyMin l = .ok (listMin1 l) := by
  simp [pyMin, List.isEmpty_iff, h]

lemma pyMax_ok (l : List ℚ) (h : l ≠ []) : pyMax l = .ok (listMax1 l) := by
  simp [pyMax, List.isEmpty_iff, h]

lemma qdiv_ok (a b : ℚ) (h : b ≠ 0) : qdiv a b = .ok (a / b) := by
  simp [qdiv, h]

lemma childBoxE_spec (g : GroupShape) (L T sw sh : ℚ) (sp : BoxQ)
    (hw : sw ≠ 0) (hh : sh ≠ 0) :
    childBoxE g L T sw sh sp = .ok (specChildAbs (groupAbsBox g) ⟨L, T, sw, sh⟩ sp) := by
  simp [childBoxE, qdiv_ok _ _ hw, qdiv_ok _ _ hh, bind, Except.bind, pure, Except.pure,
    specChildAbs, groupAbsBox, mul_div_assoc]

lemma childBoxE_degenerate (g : GroupShape) (L T sw sh : ℚ) (sp : BoxQ)
    (h : sw = 0 ∨ sh = 0) :
    childBoxE g L T sw sh sp = .error .zeroDivisionError := by
  rcases h with h | h
  · simp [childBoxE, qdiv, h, bind, Except.bind]
  · by_cases hw : sw = 0
    · simp [childBoxE, qdiv, hw, bind, Except.bind]
    · simp [childBoxE, qdiv, hw, h, bind, Except.bind]

lemma mapM_ok {α β : Type} (f : α → Except PyErr β) (g : α → β) :
    ∀ l : List α, (∀ x ∈ l, f x = .ok (g x)) → l.mapM f = .ok (l.map g) := by
  intro l
  induction l with
  | nil => intro _; rfl
  | cons x xs ih =>
    intro h
    rw [List.mapM_cons, h x (by simp), ih (fun y hy => h y (by simp [hy]))]
    rfl

lemma mapM_cons_err {α β : Type} (f : α → Except PyErr β) (x : α) (xs : List α)
    (e : PyErr) (h : f x = .error e) : (x :: xs).mapM f = .error e := by
  rw [List.mapM_cons, h]
  rfl

/-- After succeeding `min`/`max` of the tight union, `parse_groupshapeQ`
projects every child by exactly the formula of spec section 4.1. -/
lemma parse_groupshapeQ_eq_spec (g : GroupShape) (hne : g.shapes ≠ [])
    (hw : (tightUnion g.shapes).width ≠ 0) (hh : (tightUnion g.shapes).height ≠ 0) :
    parse_groupshapeQ g =
      .ok (g.shapes.map (specChildAbs (groupAbsBox g) (tightUnion g.shapes))) := by
  have h1 : g.shapes.map (·.left) ≠ [] := by simp [hne]
  have h2 : g.shapes.map (fun sp => sp.left + sp.width) ≠ [] := by simp [hne]
  have h3 : g.shapes.map (·.top) ≠ [] := by simp [hne]
  have h4 : g.shapes.map (fun sp => sp.top + sp.height) ≠ [] := by simp [hne]
  rw [parse_groupshapeQ, pyMin_ok _ h1, pyMin_ok _ h3, pyMax_ok _ h2, pyMax_ok _ h4]
  show g.shapes.mapM (childBoxE g _ _ _ _) = _
  rw [mapM_ok _ (specChildAbs (groupAbsBox g) (tightUnion g.shapes)) g.shapes]
  intro sp _
  exact childBoxE_spec g _ _ _ _ sp hw hh

lemma parse_groupshapeQ_degenerate (g : GroupShape) (hne : g.shapes ≠ [])
    (hdeg : (tightUnion g.shapes).width = 0 ∨ (tightUnion g.shapes).height = 0) :
    parse_groupshapeQ g = .error .zeroDivisionError := by
  have h1 : g.shapes.map (·.left) ≠ [] := by simp [hne]
  have h2 : g.shapes.map (fun sp => sp.left + sp.width) ≠ [] := by simp [hne]
  have h3 : g.shapes.map (·.top) ≠ [] := by simp [hne]
  have h4 : g.shapes.map (fun sp => sp.top + sp.height) ≠ [] := by simp [hne]
  rw [parse_groupshapeQ, pyMin_ok _ h1, pyMin_ok _ h3, pyMax_ok _ h2, pyMax_ok _ h4]
  show g.shapes.mapM (childBoxE g _ _ _ _) = _
  have hdeg' :
      (listMax1 (g.shapes.map fun sp => sp.left + sp.width) -
        listMin1 (g.shapes.map (·.left)) = 0) ∨
      (listMax1 (g.shapes.map fun sp => sp.top + sp.height) -
        listMin1 (g.shapes.map (·.top)) = 0) := hdeg
  obtain ⟨c, cs, hcs⟩ : ∃ c cs, g.shapes = c :: cs := by
    cases hs : g.shapes with
    | nil => exact absurd hs hne
    | cons c cs => exact ⟨c, cs, rfl⟩
  rw [hcs] at hdeg' ⊢
  exact mapM_cons_err _ _ _ _ (childBoxE_degenerate g _ _ _ _ c hdeg')

lemma monotone_affine (a b : ℚ) (ha : 0 ≤ a) : Monotone (fun x : ℚ => a * x + b) :=
  fun _ _ hxy => add_le_add_right (mul_le_mul_of_nonneg_left hxy ha) b

lemma foldl_min_affine (a b : ℚ) (ha : 0 ≤ a) :
    ∀ (xs : List ℚ) (x0 : ℚ),
      (xs.map (fun x => a * x + b)).foldl min (a * x0 + b) = a * xs.foldl min x0 + b := by
  intro xs
  induction xs with
  | nil => intro x0; rfl
  | cons y ys ih =>
    intro x0
    have hmin : min (a * x0 + b) (a * y + b) = a * min x0 y + b :=
      ((monotone_affine a b ha).map_min).symm
    simp only [List.map_cons, List.foldl_cons, hmin, ih (min x0 y)]

lemma foldl_max_affine (a b : ℚ) (ha : 0 ≤ a) :
    ∀ (xs : List ℚ) (x0 : ℚ),
      (xs.map (fun x => a * x + b)).foldl max (a * x0 + b) = a * xs.foldl max x0 + b := by
  intro xs
  induction xs with
  | nil => intro x0; rfl
  | cons y ys ih =>
    intro x0
    have hmax : max (a * x0 + b) (a * y + b) = a * max x0 y + b :=
      ((monotone_affine a b ha).map_max).symm
    simp only [List.map_cons, List.foldl_cons, hmax, ih (max x0 y)]

lemma listMin1_affine (a b : ℚ) (ha : 0 ≤ a) (xs : List ℚ) (h : xs ≠ []) :
    listMin1 (xs.map (fun x => a * x + b)) = a * listMin1 xs + b := by
  cases xs with
  | nil => exact absurd rfl h
  | cons x xs => simpa [listMin1] using foldl_min_affine a b ha xs x

lemma listMax1_affine (a b : ℚ) (ha : 0 ≤ a) (xs : List ℚ) (h : xs ≠ []) :
    listMax1 (xs.map (fun x => a * x + b)) = a * listMax1 xs + b := by
  cases xs with
  | nil => exact absurd rfl h
  | cons x xs => simpa [listMax1] using foldl_max_affine a b ha xs x

/-- Round-trip core: reprojecting every child by the spec formula and taking
the tight union of the images reproduces the group's absolute box exactly. -/
lemma tightUnion_reproject (cs : List BoxQ) (A : BoxQ) (hne : cs ≠ [])
    (hw : 0 < (tightUnion cs).width) (hh : 0 < (tightUnion cs).height)
    (hAw : 0 ≤ A.width) (hAh : 0 ≤ A.height) :
    tightUnion (cs.map (specChildAbs A (tightUnion cs))) = A := by
  set Gl := tightUnion cs with hGl
  have hsx : (0 : ℚ) ≤ A.width / Gl.width := div_nonneg hAw hw.le
  have hsy : (0 : ℚ) ≤ A.height / Gl.height := div_nonneg hAh hh.le
  have hL : listMin1 (cs.map (·.left)) = Gl.left := rfl
  have hT : listMin1 (cs.map (·.top)) = Gl.top := rfl
  have hR : listMax1 (cs.map (fun b => b.left + b.width)) = Gl.width + Gl.left := by
    show listMax1 _ = (listMax1 (cs.map (fun b => b.left + b.width)) -
      listMin1 (cs.map (·.left))) + listMin1 (cs.map (·.left))
    ring
  have hB : listMax1 (cs.map (fun b => b.top + b.height)) = Gl.height + Gl.top := by
    show listMax1 _ = (listMax1 (cs.map (fun b => b.top + b.height)) -
      listMin1 (cs.map (·.top))) + listMin1 (cs.map (·.top))
    ring
  have hlefts : (cs.map (specChildAbs A Gl)).map (·.left) =
      (cs.map (·.left)).map (fun x => (A.width / Gl.width) * x +
        (A.left - (A.width / Gl.width) * Gl.left)) := by
    simp only [List.map_map]
    apply List.map_congr_left
    intro c _
    simp [specChildAbs, Function.comp]
    ring
  have htops : (cs.map (specChildAbs A Gl)).map (·.top) =
      (cs.map (·.top)).map (fun x => (A.height / Gl.height) * x +
        (A.top - (A.height / Gl.height) * Gl.top)) := by
    simp only [List.map_map]
    apply List.map_congr_left
    intro c _
    simp [specChildAbs, Function.comp]
    ring
  have hrights : (cs.map (specChildAbs A Gl)).map (fun b => b.left + b.width) =
      (cs.map (fun b => b.left + b.width)).map (fun x => (A.width / Gl.width) * x +
        (A.left - (A.width / Gl.width) * Gl.left)) := by
    simp only [List.map_map]
    apply List.map_congr_left
    intro c _
    simp [specChildAbs, Function.comp]
    ring
  have hbots : (cs.map (specChildAbs A Gl)).map (fun b => b.top + b.height) =
      (cs.map (fun b => b.top + b.height)).map (fun x => (A.height / Gl.height) * x +
        (A.top - (A.height / Gl.height) * Gl.top)) := by
    simp only [List.map_map]
    apply List.map_congr_left
    intro c _
    simp [specChildAbs, Function.comp]
    ring
  have hne1 : cs.map (·.left) ≠ [] := by simp [hne]
  have hne2 : cs.map (fun b : BoxQ => b.left + b.width) ≠ [] := by simp [hne]
  have hne3 : cs.map (·.top) ≠ [] := by simp [hne]
  have hne4 : cs.map (fun b : BoxQ => b.top + b.height) ≠ [] := by simp [hne]
  have hw' : Gl.width ≠ 0 := ne_of_gt hw
  have hh' : Gl.height ≠ 0 := ne_of_gt hh
  have e1 : listMin1 ((cs.map (specChildAbs A Gl)).map (·.left)) = A.left := by
    rw [hlefts, listMin1_affine _ _ hsx _ hne1, hL]
    ring
  have e2 : listMin1 ((cs.map (specChildAbs A Gl)).map (·.top)) = A.top := by
    rw [htops, listMin1_affine _ _ hsy _ hne3, hT]
    ring
  have e3 : listMax1 ((cs.map (specChildAbs A Gl)).map (fun b => b.left + b.width)) =
      A.width + A.left := by
    rw [hrights, listMax1_affine _ _ hsx _ hne2, hR]
    field_simp
    ring
  have e4 : listMax1 ((cs.map (specChildAbs A Gl)).map (fun b => b.top + b.height)) =
      A.height + A.top := by
    rw [hbots, listMax1_affine _ _ hsy _ hne4, hB]
    field_simp
    ring
  simp only [tightUnion]
  rw [e1, e2, e3, e4]
  simp

/-- The worked example of the spec, before `Length` truncation: two children
at local boxes 0,0,100,50 and 100,0,100,50 inside a group whose absolute box
is 10,10,400,100 project to 10,10,200,100 and 210,10,200,100. -/
lemma exampleGroupQ :
    parse_groupshapeQ ⟨10, 10, 400, 100, [⟨0, 0, 100, 50⟩, ⟨100, 0, 100, 50⟩]⟩ =
      .ok [⟨10, 10, 200, 100⟩, ⟨210, 10, 200, 100⟩] := by
  simp [parse_groupshapeQ, pyMin, pyMax, listMin1, listMax1, childBoxE, qdiv,
    List.mapM.loop, bind, Except.bind, pure, Except.pure]
  norm_num

/-- The worked example, with the `Length` truncation applied as in the
source (here all values are integral, so truncation changes nothing). -/
lemma exampleGroupZ :
    parse_groupshape ⟨10, 10, 400, 100, [⟨0, 0, 100, 50⟩, ⟨100, 0, 100, 50⟩]⟩ =
      .ok [⟨10, 10, 200, 100⟩, ⟨210, 10, 200, 100⟩] := by
  rw [parse_groupshape, exampleGroupQ]
  show Except.ok _ = _
  simp [truncBox, pyInt]

/-- C1: for every group shape with at least one child and a non-degenerate
tight local bounding union, `parse_groupshape` computes each child's
absolute bounding box by the spec's formula (section 4.1), with `G_local`
the tight union of the children's local boxes; in particular, children at
local boxes 0,0,100,50 and 100,0,100,50 with group absolute box
10,10,400,100 yield 10,10,200,100 and 210,10,200,100. -/
theorem parse_groupshape_follows_spec_formula :
    (∀ g : GroupShape, g.shapes ≠ [] →
      (tightUnion g.shapes).width ≠ 0 → (tightUnion g.shapes).height ≠ 0 →
      parse_groupshapeQ g =
        .ok (g.shapes.map (specChildAbs (groupAbsBox g) (tightUnion g.shapes)))) ∧
    parse_groupshape ⟨10, 10, 400, 100, [⟨0, 0, 100, 50⟩, ⟨100, 0, 100, 50⟩]⟩ =
      .ok [⟨10, 10, 200, 100⟩, ⟨210, 10, 200, 100⟩] :=
  ⟨parse_groupshapeQ_eq_spec, exampleGroupZ⟩

/-- Witness for C1: the general formula statement applied to a concrete
non-degenerate group. -/
theorem parse_groupshape_follows_spec_formula_witness :
    parse_groupshapeQ ⟨0, 0, 8, 6, [⟨1, 1, 2, 2⟩, ⟨3, 3, 1, 1⟩]⟩ =
      .ok (([⟨1, 1, 2, 2⟩, ⟨3, 3, 1, 1⟩] : List BoxQ).map
        (specChildAbs (groupAbsBox ⟨0, 0, 8, 6, [⟨1, 1, 2, 2⟩, ⟨3, 3, 1, 1⟩]⟩)
          (tightUnion [⟨1, 1, 2, 2⟩, ⟨3, 3, 1, 1⟩]))) :=
  parse_groupshape_follows_spec_formula.1 _ (by decide)
    (by norm_num [tightUnion, listMin1, listMax1, min_def, max_def])
    (by norm_num [tightUnion, listMin1, listMax1, min_def, max_def])

/-- C2 counterexample: on a group whose single child is a point (zero-extent
tight union), `parse_groupshape` raises Python's `ZeroDivisionError` from
the scale division itself; there is no `DegenerateGroupGeometry` error in
the code, and in particular the produced error is not it. -/
theorem parse_groupshape_degenerate_counterexample :
    parse_groupshape ⟨0, 0, 100, 100, [⟨5, 5, 0, 0⟩]⟩ = .error .zeroDivisionError ∧
    (Except.error .zeroDivisionError : Except PyErr (List BoxZ)) ≠
      .error .degenerateGroupGeometry := by
  constructor
  · have h : parse_groupshapeQ ⟨0, 0, 100, 100, [⟨5, 5, 0, 0⟩]⟩ =
        .error .zeroDivisionError := by
      simp [parse_groupshapeQ, pyMin, pyMax, listMin1, listMax1, childBoxE, qdiv,
        List.mapM.loop, bind, Except.bind, pure, Except.pure]
    rw [parse_groupshape, h]
    rfl
  · decide

/-- C2 amended: whenever the children's tight local union has zero width or
zero height, `parse_groupshape` fails with an uncaught `ZeroDivisionError`
(the division is performed and raises), not with a dedicated
`DegenerateGroupGeometry` error. -/
theorem parse_groupshape_degenerate_raises (g : GroupShape) (hne : g.shapes ≠ [])
    (hdeg : (tightUnion g.shapes).width = 0 ∨ (tightUnion g.shapes).height = 0) :
    parse_groupshape g = .error .zeroDivisionError := by
  rw [parse_groupshape, parse_groupshapeQ_degenerate g hne hdeg]
  rfl

/-- Witness for the amended C2 at a concrete degenerate group. -/
theorem parse_groupshape_degenerate_raises_witness :
    parse_groupshape ⟨0, 0, 100, 100, [⟨5, 5, 4, 0⟩, ⟨9, 5, 0, 0⟩]⟩ =
      .error .zeroDivisionError :=
  parse_groupshape_degenerate_raises _ (by decide)
    (Or.inr (by norm_num [tightUnion, listMin1, listMax1, min_def, max_def]))

/-- Python `str.replace`: replace every non-overlapping occurrence of the
pattern, scanning left to right.  The fuel argument (instantiated with the
length of the scanned list, which bounds the number of steps) keeps the
recursion structural. -/
def replaceCharsF (pat rep : List Char) : Nat → List Char → List Char
  | _, [] => []
  | 0, l => l
  | fuel + 1, c :: rest =>
    if pat ≠ [] ∧ (c :: rest).take pat.length = pat then
      rep ++ replaceCharsF pat rep fuel ((c :: rest).drop pat.length)
    else
      c :: replaceCharsF pat rep fuel rest

/-- Python `str.replace` lifted to `String`. -/
def pyReplace (s pat rep : String) : String :=
  ⟨replaceCharsF pat.data rep.data s.data.length s.data⟩

/-- Python `str.endswith`. -/
def pyEndsWith (s suffix : String) : Bool := suffix.data.isSuffixOf s.data

/-- The on-disk media pool: an association list from path to blob content
(blobs are numbers standing for byte strings). -/
abbrev FS := List (String × Nat)

/-- Lookup of a path in the pool. -/
def fsGet : FS → String → Option Nat
  | [], _ => none
  | (k, v) :: t, p => if k = p then some v else fsGet t p

/-- Model of `os.path.exists`. -/
def pexists (fs : FS) (p : String) : Bool := (fsGet fs p).isSome

/-- Writing a file (`open(path, "wb").write(...)`). -/
def fsWrite (fs : FS) (p : String) (b : Nat) : FS := (p, b) :: fs

/-- The supported raster set `IMAGE_EXTENSIONS` (utils.py lines 62-72). -/
def IMAGE_EXTENSIONS : List String :=
  ["bmp", "jpg", "jpeg", "pgm", "png", "ppm", "tif", "tiff", "webp"]

/-- A `pptx` image part: original extension and blob content. -/
structure Image where
  ext : String
  blob : Nat
  deriving DecidableEq, Repr

/-- Embedding of `wmf_to_images` (utils.py lines 214-234), on the success path of the
external converter: raises `ValueError` unless the target ends in `.jpg`,
then has `soffice` write the converted blob (`conv blob`, the external
collaborator being a parameter) at `filepath` — the trailing assertion
checks exactly that the file now exists. -/
def wmf_to_images (conv : Nat → Nat) (blob : Nat) (filepath : String) (fs : FS) :
    Except PyErr FS :=
  if ¬ pyEndsWith filepath ".jpg" then .error .valueError
  else .ok (fsWrite fs filepath (conv blob))

/-- Embedding of `parsing_image` (utils.py lines 197-211): `wmf` images are converted to a
`.jpg` sibling key unless that key already exists; any other extension
outside `IMAGE_EXTENSIONS` raises `ValueError`; finally the raw blob is
written at the key unless a file with that key already exists. -/
def parsing_image (conv : Nat → Nat) (image : Image) (image_path : String) (fs : FS) :
    Except PyErr (String × FS) := do
  let path := if image.ext = "wmf" then pyReplace image_path ".wmf" ".jpg" else image_path
  let fs1 ←
    if image.ext = "wmf" then
      if pexists fs path then .ok fs else wmf_to_images conv image.blob path fs
    else if IMAGE_EXTENSIONS.contains image.ext then .ok fs
    else .error .valueError
  let fs2 := if pexists fs1 path then fs1 else fsWrite fs1 path image.blob
  .ok (path, fs2)

/-- Keys of the pool are distinct (each path stores one blob). -/
def wfFS (fs : FS) : Prop := (fs.map Prod.fst).Nodup

/-- How many entries the pool holds for a key. -/
def fsCount (fs : FS) (p : String) : Nat := (fs.filter (fun e => e.1 = p)).length

lemma fsGet_fsWrite_self (fs : FS) (p : String) (b : Nat) :
    fsGet (fsWrite fs p b) p = some b := by
  simp [fsGet, fsWrite]

lemma fsGet_none_not_mem (fs : FS) (p : String) (h : fsGet fs p = none) :
    p ∉ fs.map Prod.fst := by
  induction fs with
  | nil => simp
  | cons e t ih =>
    rw [fsGet] at h
    by_cases he : e.1 = p
    · simp [he] at h
    · simp only [List.map_cons, List.mem_cons]
      rintro (h1 | h1)
      · exact he h1.symm
      · exact ih (by simpa [he] using h) h1

lemma wfFS_fsWrite (fs : FS) (p : String) (b : Nat) (hwf : wfFS fs)
    (h : fsGet fs p = none) : wfFS (fsWrite fs p b) := by
  simp only [wfFS, fsWrite, List.map_cons, List.nodup_cons]
  exact ⟨fsGet_none_not_mem fs p h, hwf⟩

lemma fsCount_pos_eq_one (fs : FS) (p : String) (hwf : wfFS fs)
    (h : pexists fs p = true) : fsCount fs p = 1 := by
  induction fs with
  | nil => simp [pexists, fsGet] at h
  | cons e t ih =>
    simp only [wfFS, List.map_cons, List.nodup_cons] at hwf
    by_cases he : e.1 = p
    · have : t.filter (fun x => x.1 = p) = [] := by
        rw [List.filter_eq_nil_iff]
        intro a ha
        simp only [decide_eq_true_eq]
        intro hap
        exact hwf.1 (he ▸ hap ▸ List.mem_map_of_mem Prod.fst ha)
      simp [fsCount, he, this]
    · have h' : pexists t p = true := by
        simpa [pexists, fsGet, he] using h
      have := ih hwf.2 h'
      simpa [fsCount, he] using this

lemma pexists_false_fsGet_none (fs : FS) (p : String) (h : pexists fs p = false) :
    fsGet fs p = none := by
  cases hfg : fsGet fs p with
  | none => rfl
  | some v =>
    rw [pexists, hfg] at h
    simp at h

lemma pexists_fsWrite_self (fs : FS) (p : String) (b : Nat) :
    pexists (fsWrite fs p b) p = true := by
  simp [pexists, fsGet_fsWrite_self]

/-- C4: media extraction is idempotent: a second `parsing_image` call with
the same image content and target key performs no disk write (the pool is
returned unchanged) and the pool holds exactly one entry for the returned
key (assuming, as the file system guarantees, one blob per path). -/
theorem parsing_image_idempotent (conv : Nat → Nat) (image : Image)
    (image_path : String) (fs : FS) (p : String) (fs' : FS) (hwf : wfFS fs)
    (h : parsing_image conv image image_path fs = .ok (p, fs')) :
    parsing_image conv image image_path fs' = .ok (p, fs') ∧ fsCount fs' p = 1 := by
  by_cases hext : image.ext = "wmf"
  · by_cases hex : pexists fs (pyReplace image_path ".wmf" ".jpg") = true
    · have hrun : parsing_image conv image image_path fs =
          .ok (pyReplace image_path ".wmf" ".jpg", fs) := by
        simp [parsing_image, hext, hex, bind, Except.bind]
      rw [hrun] at h
      obtain ⟨hp, hfs⟩ : p = pyReplace image_path ".wmf" ".jpg" ∧ fs' = fs := by
        have := h.symm
        simp only [Except.ok.injEq, Prod.mk.injEq] at this
        exact this
      rw [hp, hfs]
      exact ⟨hrun, fsCount_pos_eq_one _ _ hwf hex⟩
    · rw [Bool.not_eq_true] at hex
      by_cases hend : pyEndsWith (pyReplace image_path ".wmf" ".jpg") ".jpg" = true
      · have hrun : parsing_image conv image image_path fs =
            .ok (pyReplace image_path ".wmf" ".jpg",
              fsWrite fs (pyReplace image_path ".wmf" ".jpg") (conv image.blob)) := by
          simp [parsing_image, hext, hex, hend, wmf_to_images, bind, Except.bind,
            pexists_fsWrite_self]
        rw [hrun] at h
        obtain ⟨hp, hfs⟩ : p = pyReplace image_path ".wmf" ".jpg" ∧
            fs' = fsWrite fs (pyReplace image_path ".wmf" ".jpg") (conv image.blob) := by
          have := h.symm
          simp only [Except.ok.injEq, Prod.mk.injEq] at this
          exact this
        rw [hp, hfs]
        have hwf' : wfFS (fsWrite fs (pyReplace image_path ".wmf" ".jpg")
            (conv image.blob)) :=
          wfFS_fsWrite fs _ (conv image.blob) hwf (pexists_false_fsGet_none fs _ hex)
        have hex' : pexists (fsWrite fs (pyReplace image_path ".wmf" ".jpg")
            (conv image.blob)) (pyReplace image_path ".wmf" ".jpg") = true :=
          pexists_fsWrite_self fs _ (conv image.blob)
        refine ⟨?_, fsCount_pos_eq_one _ _ hwf' hex'⟩
        simp [parsing_image, hext, hex', bind, Except.bind]
      · rw [Bool.not_eq_true] at hend
        simp [parsing_image, hext, hex, hend, wmf_to_images, bind, Except.bind] at h
  · by_cases hsupp : image.ext ∈ IMAGE_EXTENSIONS
    · by_cases hex : pexists fs image_path = true
      · have hrun : parsing_image conv image image_path fs = .ok (image_path, fs) := by
          simp [parsing_image, hext, hsupp, hex, bind, Except.bind]
        rw [hrun] at h
        obtain ⟨hp, hfs⟩ : p = image_path ∧ fs' = fs := by
          have := h.symm
          simp only [Except.ok.injEq, Prod.mk.injEq] at this
          exact this
        rw [hp, hfs]
        exact ⟨hrun, fsCount_pos_eq_one _ _ hwf hex⟩
      · rw [Bool.not_eq_true] at hex
        have hrun : parsing_image conv image image_path fs =
            .ok (image_path, fsWrite fs image_path image.blob) := by
          simp [parsing_image, hext, hsupp, hex, bind, Except.bind,
            pexists_fsWrite_self]
        rw [hrun] at h
        obtain ⟨hp, hfs⟩ : p = image_path ∧ fs' = fsWrite fs image_path image.blob := by
          have := h.symm
          simp only [Except.ok.injEq, Prod.mk.injEq] at this
          exact this
        rw [hp, hfs]
        have hwf' : wfFS (fsWrite fs image_path image.blob) :=
          wfFS_fsWrite fs _ image.blob hwf (pexists_false_fsGet_none fs _ hex)
        have hex' : pexists (fsWrite fs image_path image.blob) image_path = true :=
          pexists_fsWrite_self fs _ image.blob
        refine ⟨?_, fsCount_pos_eq_one _ _ hwf' hex'⟩
        simp [parsing_image, hext, hsupp, hex', bind, Except.bind]
    · simp [parsing_image, hext, hsupp, bind, Except.bind] at h

/-- Witness for C4: extracting a fresh png into an empty pool, then again. -/
theorem parsing_image_idempotent_witness :
    parsing_image id ⟨"png", 7⟩ "a.png" [("a.png", 7)] = .ok ("a.png", [("a.png", 7)]) ∧
    fsCount [("a.png", 7)] "a.png" = 1 :=
  parsing_image_idempotent id ⟨"png", 7⟩ "a.png" [] "a.png" [("a.png", 7)]
    (by simp [wfFS]) (by decide)

/-- C5 counterexample: a gif image is outside the supported raster set and is
not wmf; `parsing_image` raises `ValueError` instead of invoking the
external converter. -/
theorem parsing_image_unsupported_counterexample :
    IMAGE_EXTENSIONS.contains "gif" = false ∧
    parsing_image id ⟨"gif", 0⟩ "a.gif" [] = .error .valueError := by
  constructor
  · decide
  · decide

/-- C5 amended: only `wmf`-encoded images are handed to the external
conversion collaborator (when the converted `.jpg` key is absent, the
converted blob is written under it); every other encoding outside the
supported raster set makes `parsing_image` raise `ValueError`. -/
theorem parsing_image_wmf_conversion :
    (∀ (conv : Nat → Nat) (b : Nat) (path : String) (fs : FS),
      pexists fs (pyReplace path ".wmf" ".jpg") = false →
      pyEndsWith (pyReplace path ".wmf" ".jpg") ".jpg" = true →
      ∃ fs', parsing_image conv ⟨"wmf", b⟩ path fs =
          .ok (pyReplace path ".wmf" ".jpg", fs') ∧
        fsGet fs' (pyReplace path ".wmf" ".jpg") = some (conv b)) ∧
    (∀ (conv : Nat → Nat) (img : Image) (path : String) (fs : FS),
      img.ext ≠ "wmf" → IMAGE_EXTENSIONS.contains img.ext = false →
      parsing_image conv img path fs = .error .valueError) := by
  constructor
  · intro conv b path fs hex hend
    refine ⟨fsWrite fs (pyReplace path ".wmf" ".jpg") (conv b), ?_, ?_⟩
    · simp [parsing_image, hex, hend, wmf_to_images, bind, Except.bind,
        pexists_fsWrite_self]
    · exact fsGet_fsWrite_self _ _ _
  · intro conv img path fs hne hsupp
    have hsupp' : img.ext ∉ IMAGE_EXTENSIONS := by simpa using hsupp
    simp [parsing_image, hne, hsupp', bind, Except.bind]

/-- Witness for C5 at a concrete wmf image and a concrete unsupported one. -/
theorem parsing_image_wmf_conversion_witness :
    (∃ fs', parsing_image Nat.succ ⟨"wmf", 3⟩ "pic.wmf" [] =
        .ok (pyReplace "pic.wmf" ".wmf" ".jpg", fs') ∧
      fsGet fs' (pyReplace "pic.wmf" ".wmf" ".jpg") = some (Nat.succ 3)) ∧
    parsing_image Nat.succ ⟨"emf", 3⟩ "pic.emf" [] = .error .valueError :=
  ⟨parsing_image_wmf_conversion.1 Nat.succ 3 "pic.wmf" [] (by decide) (by decide),
    parsing_image_wmf_conversion.2 Nat.succ ⟨"emf", 3⟩ "pic.emf" [] (by decide) (by decide)⟩

/-- The retry loop produced by `tenacity_decorator` (utils.py lines 168-177):
`retry(wait=wait_fixed(wait), stop=stop_after_attempt(stop))`.  `f k` is the
outcome of the k-th attempt of the wrapped call (`none` = raised); the
result is (outcome, attempts made, total backoff slept).  A `none` outcome
is tenacity's `RetryError` raised once the attempt cap is reached; tenacity
sleeps the fixed wait after a failed attempt only when another attempt
follows. -/
def retryGo {A : Type} (wait : Nat) (f : Nat → Option A) :
    Nat → Nat → Nat → Option A × Nat × Nat
  | 0, k, w => (none, k, w)
  | fuel + 1, k, w =>
    match f (k + 1) with
    | some a => (some a, k + 1, w)
    | none =>
      if fuel = 0 then (none, k + 1, w) else retryGo wait f fuel (k + 1) (w + wait)

/-- The decorator `tenacity_decorator(wait, stop)` applied to a call. -/
def tenacity_decorator {A : Type} (wait stop : Nat) (f : Nat → Option A) :
    Option A × Nat × Nat :=
  retryGo wait f stop 0 0

/-- Since `wmf_to_images` is decorated with the bare `@tenacity_decorator`, a call uses
the defaults wait=3, stop=5. -/
def wmf_to_images_call {A : Type} (f : Nat → Option A) : Option A × Nat × Nat :=
  tenacity_decorator 3 5 f

lemma retryGo_attempts_le {A : Type} (wait : Nat) (f : Nat → Option A) :
    ∀ (fuel k w : Nat), (retryGo wait f fuel k w).2.1 ≤ k + fuel := by
  intro fuel
  induction fuel with
  | zero => intro k w; simp [retryGo]
  | succ n ih =>
    intro k w
    rw [retryGo]
    cases f (k + 1) with
    | some a => simp
    | none =>
      by_cases hn : n = 0
      · simp [hn]
      · simp only [hn, if_false]
        have := ih (k + 1) (w + wait)
        omega

lemma retryGo_attempts_ge {A : Type} (wait : Nat) (f : Nat → Option A) :
    ∀ (fuel k w : Nat), 1 ≤ fuel → k + 1 ≤ (retryGo wait f fuel k w).2.1 := by
  intro fuel
  induction fuel with
  | zero => intro k w h; omega
  | succ n ih =>
    intro k w _
    rw [retryGo]
    cases f (k + 1) with
    | some a => simp
    | none =>
      by_cases hn : n = 0
      · simp [hn]
      · simp only [hn, if_false]
        have := ih (k + 1) (w + wait) (by omega)
        omega

lemma retryGo_wait_eq {A : Type} (wait : Nat) (f : Nat → Option A) :
    ∀ (fuel k w : Nat),
      (retryGo wait f fuel k w).2.2 =
        w + wait * ((retryGo wait f fuel k w).2.1 - k - 1) := by
  intro fuel
  induction fuel with
  | zero => intro k w; simp [retryGo]
  | succ n ih =>
    intro k w
    rw [retryGo]
    cases f (k + 1) with
    | some a => simp
    | none =>
      by_cases hn : n = 0
      · simp [hn]
      · simp only [hn, if_false]
        have hge : k + 2 ≤ (retryGo wait f n (k + 1) (w + wait)).2.1 :=
          retryGo_attempts_ge wait f n (k + 1) (w + wait) (by omega)
        rw [ih (k + 1) (w + wait)]
        have harg : (retryGo wait f n (k + 1) (w + wait)).2.1 - k - 1 =
            ((retryGo wait f n (k + 1) (w + wait)).2.1 - (k + 1) - 1) + 1 := by
          omega
        rw [harg, Nat.mul_succ]
        ring

lemma retryGo_all_fail {A : Type} (wait : Nat) (f : Nat → Option A) :
    ∀ (fuel k w : Nat), 1 ≤ fuel → (∀ j, k < j → j ≤ k + fuel → f j = none) →
      retryGo wait f fuel k w = (none, k + fuel, w + wait * (fuel - 1)) := by
  intro fuel
  induction fuel with
  | zero => intro k w h; omega
  | succ n ih =>
    intro k w _ h
    have hf : f (k + 1) = none := h (k + 1) (by omega) (by omega)
    rw [retryGo, hf]
    cases n with
    | zero => simp
    | succ m =>
      simp only [Nat.succ_ne_zero, if_false]
      rw [ih (k + 1) (w + wait) (by omega)
        (fun j h1 h2 => h j (by omega) (by omega))]
      have h2 : k + 1 + (m + 1) = k + (m + 1 + 1) := by omega
      have h3 : w + wait + wait * (m + 1 - 1) = w + wait * (m + 1 + 1 - 1) := by
        simp only [Nat.add_sub_cancel]
        rw [Nat.mul_succ]
        ring
      rw [h2, h3]

/-- C6: every `wmf_to_images` call is wrapped in the tenacity retry with
fixed 3-second backoff and a cap of 5 attempts: no run makes more than 5
attempts, the total backoff is always `3 * (attempts - 1)`, and when every
attempt fails the call stops after exactly 5 attempts and 12 seconds of
backoff with the retry-exhaustion error (tenacity's `RetryError` — the
condition the spec's error taxonomy names `ConversionFailed`), instead of
hanging or retrying forever. -/
theorem wmf_to_images_retry_capped {A : Type} (f : Nat → Option A) :
    (wmf_to_images_call f).2.1 ≤ 5 ∧
    (wmf_to_images_call f).2.2 = 3 * ((wmf_to_images_call f).2.1 - 1) ∧
    ((∀ k, 1 ≤ k → k ≤ 5 → f k = none) → wmf_to_images_call f = (none, 5, 12)) := by
  refine ⟨?_, ?_, ?_⟩
  · have := retryGo_attempts_le 3 f 5 0 0
    simpa [wmf_to_images_call, tenacity_decorator] using this
  · have := retryGo_wait_eq 3 f 5 0 0
    simpa [wmf_to_images_call, tenacity_decorator] using this
  · intro hall
    have := retryGo_all_fail 3 f 5 0 0 (by omega)
      (fun j h1 h2 => hall j (by omega) (by omega))
    simpa [wmf_to_images_call, tenacity_decorator] using this

/-- Witness for C6: a call that always fails is abandoned after exactly five
attempts and twelve seconds of backoff. -/
theorem wmf_to_images_retry_capped_witness :
    wmf_to_images_call (fun _ : Nat => (none : Option Nat)) = (none, 5, 12) :=
  (wmf_to_images_retry_capped (fun _ : Nat => (none : Option Nat))).2.2
    (fun _ _ _ => rfl)

/-- Model of `os.path.join` for a relative second component. -/
def pjoin (a b : String) : String := a ++ "/" ++ b

/-- The set of directories present on disk. -/
abbrev DirSet := List String

/-- Model of `os.makedirs(d, exist_ok=True)`. -/
def makedirs (dirs : DirSet) (d : String) : DirSet :=
  if d ∈ dirs then dirs else d :: dirs

/-- The `Config` object: run directory and its `images/` subdirectory. -/
structure Config where
  RUN_DIR : String
  IMAGE_DIR : String
  deriving DecidableEq, Repr

/-- Embedding of `Config.set_rundir` (utils.py lines 381-392): record the two paths and
create both directories (`exist_ok=True`), run dir first. -/
def set_rundir (rundir : String) (dirs : DirSet) : Config × DirSet :=
  let c : Config := ⟨rundir, pjoin rundir "images"⟩
  (c, makedirs (makedirs dirs c.RUN_DIR) c.IMAGE_DIR)

/-- Embedding of `Config.set_session`: the run directory is `./runs/` plus the session id. -/
def set_session (session_id : String) (dirs : DirSet) : Config × DirSet :=
  set_rundir ("./runs/" ++ session_id) dirs

/-- Embedding of `Config.__init__` (utils.py lines 351-369): a run directory takes
precedence, then a session id; with neither, `ValueError` is raised. -/
def Config.init (rundir session_id : Option String) (dirs : DirSet) :
    Except PyErr (Config × DirSet) :=
  match rundir with
  | some r => .ok (set_rundir r dirs)
  | none =>
    match session_id with
    | some s => .ok (set_session s dirs)
    | none => .error .valueError

lemma mem_makedirs_self (dirs : DirSet) (d : String) : d ∈ makedirs dirs d := by
  by_cases h : d ∈ dirs <;> simp [makedirs, h]

lemma mem_makedirs_of_mem (dirs : DirSet) (d x : String) (h : x ∈ dirs) :
    x ∈ makedirs dirs d := by
  by_cases hd : d ∈ dirs <;> simp [makedirs, hd, h]

/-- C8: for every successfully constructed `Config` (via a run directory or
a session id), both the run directory and its `images/` subdirectory exist
on disk after construction. -/
theorem config_construct_creates_dirs (rundir session_id : Option String)
    (dirs : DirSet) (c : Config) (dirs' : DirSet)
    (h : Config.init rundir session_id dirs = .ok (c, dirs')) :
    c.RUN_DIR ∈ dirs' ∧ c.IMAGE_DIR ∈ dirs' := by
  have main : ∀ (r : String), (c, dirs') = set_rundir r dirs →
      c.RUN_DIR ∈ dirs' ∧ c.IMAGE_DIR ∈ dirs' := by
    intro r hr
    rw [set_rundir] at hr
    obtain ⟨hc, hd⟩ : c = ⟨r, pjoin r "images"⟩ ∧
        dirs' = makedirs (makedirs dirs r) (pjoin r "images") := by
      have := hr
      simp only [Prod.mk.injEq] at this
      exact this
    rw [hc, hd]
    exact ⟨mem_makedirs_of_mem _ _ _ (mem_makedirs_self dirs r),
      mem_makedirs_self _ _⟩
  cases rundir with
  | some r =>
    refine main r ?_
    simp only [Config.init] at h
    simpa using h.symm
  | none =>
    cases session_id with
    | some s =>
      refine main ("./runs/" ++ s) ?_
      simp only [Config.init, set_session] at h
      simpa using h.symm
    | none =>
      simp [Config.init] at h

/-- Witness for C8 at a concrete run directory. -/
theorem config_construct_creates_dirs_witness :
    (Config.mk "run" "run/images").RUN_DIR ∈ ["run/images", "run"] ∧
    (Config.mk "run" "run/images").IMAGE_DIR ∈ ["run/images", "run"] :=
  config_construct_creates_dirs (some "run") none [] (Config.mk "run" "run/images")
    ["run/images", "run"] (by decide)

/-- An object's attribute table (attribute name to value; the values are
numbers standing for arbitrary non-None Python values). -/
abbrev Obj := List (String × Nat)

/-- Python `getattr`: the attribute's current value, if set. -/
def getattrO : Obj → String → Option Nat := fsGet

/-- Python `setattr`. -/
def setattrO (o : Obj) (k : String) (v : Nat) : Obj := (k, v) :: o

/-- One step of `dict_to_object`'s loop (utils.py lines 313-329): assign
`setattr(obj, key, value)` only when the key is not excluded and the value
is not None. -/
def applyItem (ex : List String) (acc : Obj) (kv : String × Option Nat) : Obj :=
  match kv.2 with
  | some v => if kv.1 ∈ ex then acc else setattrO acc kv.1 v
  | none => acc

/-- Embedding of `dict_to_object`: iterate the dictionary in order; a missing exclude set
defaults to the empty set. -/
def dict_to_object (dict_obj : List (String × Option Nat)) (o : Obj)
    (exclude : Option (List String)) : Obj :=
  dict_obj.foldl (applyItem (exclude.getD [])) o

lemma getattrO_setattrO_ne (o : Obj) (k k' : String) (v : Nat) (h : k' ≠ k) :
    getattrO (setattrO o k' v) k = getattrO o k := by
  simp [getattrO, setattrO, fsGet, h]

lemma foldl_applyItem_unassigned (ex : List String) (k : String) :
    ∀ (d : List (String × Option Nat)) (o : Obj),
      (∀ v : Nat, (k, some v) ∈ d → k ∈ ex) →
      getattrO (d.foldl (applyItem ex) o) k = getattrO o k := by
  intro d
  induction d with
  | nil => intro o _; rfl
  | cons kv rest ih =>
    intro o h
    rw [List.foldl_cons]
    have hrest : ∀ v : Nat, (k, some v) ∈ rest → k ∈ ex := by
      intro v hv
      exact h v (by simp [hv])
    rw [ih _ hrest]
    rcases kv with ⟨k', ov⟩
    cases ov with
    | none => rfl
    | some v =>
      by_cases hex : k' ∈ ex
      · simp [applyItem, hex]
      · have hkk : k' ≠ k := by
          intro hkk
          exact hex (hkk ▸ h v (by simp [hkk]))
        simp [applyItem, hex]
        exact getattrO_setattrO_ne o k k' v hkk

lemma keys_not_mem_no_entry (d : List (String × Option Nat)) (k : String)
    (h : k ∉ d.map Prod.fst) : ∀ v : Nat, (k, some v) ∈ d → False := by
  intro v hv
  exact h (List.mem_map_of_mem Prod.fst hv)

lemma foldl_applyItem_assigned (ex : List String) (k : String) (v : Nat) :
    ∀ (d : List (String × Option Nat)) (o : Obj),
      (d.map Prod.fst).Nodup → (k, some v) ∈ d → k ∉ ex →
      getattrO (d.foldl (applyItem ex) o) k = some v := by
  intro d
  induction d with
  | nil => intro o _ hmem; simp at hmem
  | cons kv rest ih =>
    intro o hnd hmem hex
    simp only [List.map_cons, List.nodup_cons] at hnd
    rw [List.foldl_cons]
    rcases List.mem_cons.mp hmem with hhd | htl
    · have hk : kv = (k, some v) := hhd.symm
      rw [hk]
      have hnok : ∀ v' : Nat, (k, some v') ∈ rest → k ∈ ex := by
        intro v' hv'
        exact absurd (List.mem_map_of_mem Prod.fst hv') (by simpa [hk] using hnd.1)
      rw [foldl_applyItem_unassigned ex k rest _ hnok]
      simp [applyItem, hex, getattrO, setattrO, fsGet]
    · exact ih _ hnd.2 htl hex

/-- C10: `dict_to_object` assigns exactly the attributes named by dictionary
keys that are outside the exclude set and carry non-None values; every
other attribute of the object is left unchanged — in particular keys mapped
to None never overwrite existing attribute values. -/
theorem dict_to_object_frame (d : List (String × Option Nat)) (o : Obj)
    (exclude : Option (List String)) (k : String) :
    ((∀ v : Nat, (k, some v) ∈ d → k ∈ exclude.getD []) →
      getattrO (dict_to_object d o exclude) k = getattrO o k) ∧
    ((d.map Prod.fst).Nodup → ∀ v : Nat, (k, some v) ∈ d → k ∉ exclude.getD [] →
      getattrO (dict_to_object d o exclude) k = some v) :=
  ⟨fun h => foldl_applyItem_unassigned _ k d o h,
    fun hnd v hv hex => foldl_applyItem_assigned _ k v d o hnd hv hex⟩

/-- Witness for C10: with dictionary a=1, b=None over an object where b=5,
the attribute b keeps its value (None does not overwrite) and a is set. -/
theorem dict_to_object_frame_witness :
    getattrO (dict_to_object [("a", some 1), ("b", none)] [("b", 5)] none) "b" =
      getattrO [("b", 5)] "b" ∧
    getattrO (dict_to_object [("a", some 1), ("b", none)] [("b", 5)] none) "a" =
      some 1 :=
  ⟨(dict_to_object_frame [("a", some 1), ("b", none)] [("b", 5)] none "b").1
      (by intro v hv; simp at hv),
    (dict_to_object_frame [("a", some 1), ("b", none)] [("b", 5)] none "a").2
      (by decide) 1 (by decide) (by decide)⟩

/-- Modelled from the spec: the closure/mutation machinery of spec sections
3 and 4.3 lives in `shapes.py` / `presentation.py`, which are not among the
provided source files (`pptparse/__init__.py` imports `Closure` and
`ClosureType` from them, attesting their existence).  The closure kinds are
the spec's `ClosureType` variants with their payloads. -/
inductive ClosureKind where
  | replaceText (s : String)
  | setStyle (field : Nat) (value : Nat)
  | delete
  | reorder (z : Nat)
  | setGeometry (b : BoxZ)
  | replaceImage (key : Nat)
  deriving DecidableEq, Repr

/-- Modelled from the spec: a closure is keyed to a target shape id and
carries a kind/payload (spec section 3). -/
structure Closure where
  target : Nat
  kind : ClosureKind
  deriving DecidableEq, Repr

/-- Modelled from the spec: the replay-relevant state of one shape — its
slide-unique id, text, style fields, z-order, geometry and image key. -/
structure SShape where
  sid : Nat
  text : String
  style : List (Nat × Nat)
  z : Nat
  geom : BoxZ
  imageKey : Nat
  deriving DecidableEq, Repr

/-- Modelled from the spec: the effect of a non-delete closure kind on its
target shape; `setStyle` overrides only the field it sets (field-level
merge, spec section 4.3). -/
def applyKind (s : SShape) : ClosureKind → SShape
  | .replaceText t => { s with text := t }
  | .setStyle f v => { s with style := (f, v) :: s.style }
  | .delete => s
  | .reorder z => { s with z := z }
  | .setGeometry b => { s with geom := b }
  | .replaceImage key => { s with imageKey := key }

/-- Modelled from the spec: applying one closure to the current slide state
(spec section 4.3): `Delete` removes the target shape; any other kind
updates the target in place; a closure whose target is no longer present
changes nothing — a no-op, not an error. -/
def applyClosure (st : List SShape) (c : Closure) : List SShape :=
  match c.kind with
  | .delete => st.filter (fun s => s.sid ≠ c.target)
  | k => st.map (fun s => if s.sid = c.target then applyKind s k else s)

/-- Modelled from the spec: replay processes the slide's closure log in
insertion order against the current materialized state. -/
def replay (st : List SShape) (log : List Closure) : List SShape :=
  log.foldl applyClosure st

/-- The shape ids present in a state. -/
def sids (st : List SShape) : List Nat := st.map (·.sid)

lemma applyKind_sid (s : SShape) (k : ClosureKind) : (applyKind s k).sid = s.sid := by
  cases k <;> rfl

lemma applyClosure_noop (st : List SShape) (c : Closure)
    (h : ∀ s ∈ st, s.sid ≠ c.target) : applyClosure st c = st := by
  have hfilter : st.filter (fun s => s.sid ≠ c.target) = st := by
    apply List.filter_eq_self.mpr
    intro s hs
    simpa using h s hs
  have hmap : ∀ k : ClosureKind,
      st.map (fun s => if s.sid = c.target then applyKind s k else s) = st := by
    intro k
    conv_rhs => rw [← List.map_id st]
    apply List.map_congr_left
    intro s hs
    simp [h s hs]
  rw [applyClosure]
  cases c.kind <;> first | exact hfilter | exact hmap _

lemma sids_map_update (st : List SShape) (tgt : Nat) (k : ClosureKind) :
    sids (st.map (fun s => if s.sid = tgt then applyKind s k else s)) = sids st := by
  simp only [sids, List.map_map]
  apply List.map_congr_left
  intro s _
  by_cases hs : s.sid = tgt <;> simp [Function.comp, hs, applyKind_sid]

lemma not_mem_sids_applyClosure (st : List SShape) (c : Closure) (t : Nat)
    (h : t ∉ sids st) : t ∉ sids (applyClosure st c) := by
  rw [applyClosure]
  cases c.kind with
  | delete =>
    intro hmem
    apply h
    simp only [sids, List.mem_map] at hmem ⊢
    obtain ⟨s, hs, hst⟩ := hmem
    exact ⟨s, (List.mem_filter.mp hs).1, hst⟩
  | replaceText s0 => rw [sids_map_update]; exact h
  | setStyle f v => rw [sids_map_update]; exact h
  | reorder z => rw [sids_map_update]; exact h
  | setGeometry b => rw [sids_map_update]; exact h
  | replaceImage key => rw [sids_map_update]; exact h

lemma not_mem_sids_delete (st : List SShape) (t : Nat) :
    t ∉ sids (applyClosure st (Closure.mk t .delete)) := by
  intro hmem
  simp only [applyClosure, sids, List.mem_map] at hmem
  obtain ⟨s, hs, hst⟩ := hmem
  have hpred := (List.mem_filter.mp hs).2
  simp [hst] at hpred

lemma replay_cons (st : List SShape) (c : Closure) (log : List Closure) :
    replay st (c :: log) = replay (applyClosure st c) log := rfl

lemma replay_skip (t : Nat) :
    ∀ (post : List Closure) (st : List SShape), t ∉ sids st →
      replay st post = replay st (post.filter (fun c => c.target ≠ t)) := by
  intro post
  induction post with
  | nil => intro st _; rfl
  | cons c rest ih =>
    intro st h
    by_cases hc : c.target = t
    · have hnoop : applyClosure st c = st := by
        apply applyClosure_noop
        intro s hs he
        apply h
        rw [← hc, ← he]
        exact List.mem_map_of_mem _ hs
      have hfc : (c :: rest).filter (fun c => c.target ≠ t) =
          rest.filter (fun c => c.target ≠ t) := by
        simp [List.filter_cons, hc]
      rw [hfc, replay_cons, hnoop]
      exact ih st h
    · have hfc : (c :: rest).filter (fun c => c.target ≠ t) =
          c :: rest.filter (fun c => c.target ≠ t) := by
        simp [List.filter_cons, hc]
      rw [hfc, replay_cons, replay_cons]
      exact ih (applyClosure st c) (not_mem_sids_applyClosure st c t h)

/-- C7: in closure replay, once a `Delete` closure for a target shape has
been applied, every later closure in the log that targets that shape is a
no-op, never an error: replay completes (it is a total function) and the
final state equals the state obtained by dropping those later closures. -/
theorem replay_delete_then_noops (shapes : List SShape) (pre post : List Closure)
    (t : Nat) :
    replay shapes (pre ++ Closure.mk t .delete :: post) =
      replay shapes (pre ++ Closure.mk t .delete ::
        post.filter (fun c => c.target ≠ t)) := by
  rw [replay, replay, List.foldl_append, List.foldl_append,
    List.foldl_cons, List.foldl_cons]
  exact replay_skip t post _ (not_mem_sids_delete _ t)

/-- One content child of a paragraph's XML: a text run `a:r` or a field
code `a:fld`.  Both carry text; `_Paragraph.text` concatenates the text of
all content children while `_Paragraph.runs` lists only the runs. -/
inductive PElem where
  | run (s : String)
  | fld (s : String)
  deriving DecidableEq, Repr

/-- The text of one content child. -/
def elemText : PElem → String
  | .run s => s
  | .fld s => s

/-- Model of `paragraph.runs`: the texts of the run children, in order. -/
def runsOf (p : List PElem) : List String :=
  p.filterMap (fun e => match e with | .run s => some s | .fld _ => none)

/-- Model of `paragraph.text`: concatenation of all content children's texts. -/
def paraText (p : List PElem) : String := String.join (p.map elemText)

/-- The `xml.replace("fld", "r")` conversion of `runs_merge`: in the parsed
detached copy every field element has become a run. -/
def fldToRun : PElem → PElem
  | .fld s => .run s
  | e => e

/-- Python's `max(runs, key=lambda x: len(x.text))`: index of the first run
with maximal text length (a later entry replaces the current best only when
strictly longer). -/
def maxIdxFrom : List String → Nat → Nat → Nat → Nat
  | [], _, bi, _ => bi
  | s :: rest, bl, bi, i =>
    if bl < s.length then maxIdxFrom rest s.length i (i + 1)
    else maxIdxFrom rest bl bi (i + 1)

/-- Index of the chosen run among the paragraph's runs. -/
def bestRunIdx : List String → Nat
  | [] => 0
  | t :: ts => maxIdxFrom ts t.length 0 1

/-- The merge loop of `runs_merge`: `run.text = paragraph.text` on the
chosen run (the j-th run), then `r._r.getparent().remove(r._r)` removes
every other run; field elements are not runs and remain in place. -/
def keepMerged (j : Nat) (newText : String) : List PElem → Nat → List PElem
  | [], _ => []
  | .fld s :: rest, i => .fld s :: keepMerged j newText rest i
  | .run _ :: rest, i =>
    if i = j then .run newText :: keepMerged j newText rest (i + 1)
    else keepMerged j newText rest (i + 1)

/-- Merging the runs of a live paragraph: the first longest run receives the
paragraph's full text (read before any removal), the other runs are
removed. -/
def mergeElems (p : List PElem) : List PElem :=
  keepMerged (bestRunIdx (runsOf p)) (paraText p) p 0

/-- Embedding of `runs_merge` (utils.py lines 97-128): returns the merged (or single)
run's text together with the paragraph state after the call.  When the
paragraph has no runs, the field-code conversion parses a detached copy
(`parse_xml(paragraph._element.xml.replace("fld", "r"))`), so everything in
that branch — including the merge when the copy has several runs — happens
on the copy and the live paragraph is left unchanged. -/
def runs_merge (p : List PElem) : Option String × List PElem :=
  match runsOf p with
  | [x] => (some x, p)
  | [] =>
    match runsOf (p.map fldToRun) with
    | [] => (none, p)
    | [x] => (some x, p)
    | _ :: _ :: _ => (some (paraText p), p)
  | _ :: _ :: _ => (some (paraText p), mergeElems p)

lemma runsOf_map_fldToRun (p : List PElem) :
    runsOf (p.map fldToRun) = p.map elemText := by
  induction p with
  | nil => rfl
  | cons e rest ih =>
    cases e <;> simp [runsOf, fldToRun, elemText, List.filterMap_cons] <;>
      simpa [runsOf] using ih

lemma runsOf_ne_nil_of_runs (p : List PElem) (h : runsOf p ≠ []) : p ≠ [] := by
  intro hp
  rw [hp] at h
  exact h rfl

lemma maxIdxFrom_lt :
    ∀ (texts : List String) (bl bi i : Nat), bi < i →
      maxIdxFrom texts bl bi i < i + texts.length := by
  intro texts
  induction texts with
  | nil => intro bl bi i h; simpa [maxIdxFrom] using h
  | cons s rest ih =>
    intro bl bi i h
    rw [maxIdxFrom]
    by_cases hb : bl < s.length
    · simp only [hb, if_true]
      have := ih s.length i (i + 1) (by omega)
      simpa [Nat.add_assoc, Nat.add_comm 1 rest.length] using this
    · simp only [hb, if_false]
      have := ih bl bi (i + 1) (by omega)
      simp only [List.length_cons]
      omega

lemma bestRunIdx_lt (texts : List String) (h : texts ≠ []) :
    bestRunIdx texts < texts.length := by
  cases texts with
  | nil => exact absurd rfl h
  | cons t ts =>
    rw [bestRunIdx]
    have := maxIdxFrom_lt ts t.length 0 1 (by omega)
    simp only [List.length_cons]
    omega

lemma runsOf_keepMerged (j : Nat) (t : String) :
    ∀ (p : List PElem) (i : Nat),
      runsOf (keepMerged j t p i) =
        if i ≤ j ∧ j < i + (runsOf p).length then [t] else [] := by
  intro p
  induction p with
  | nil =>
    intro i
    rw [if_neg (by simp only [runsOf, List.filterMap_nil, List.length_nil]; omega)]
    rfl
  | cons e rest ih =>
    intro i
    cases e with
    | fld s =>
      rw [keepMerged]
      have : runsOf (PElem.fld s :: rest) = runsOf rest := by
        simp [runsOf, List.filterMap_cons]
      rw [this]
      have : runsOf (PElem.fld s :: keepMerged j t rest i) =
          runsOf (keepMerged j t rest i) := by
        simp [runsOf, List.filterMap_cons]
      rw [this, ih i]
    | run s =>
      rw [keepMerged]
      have hlen : (runsOf (PElem.run s :: rest)).length = (runsOf rest).length + 1 := by
        simp [runsOf, List.filterMap_cons]
      by_cases hij : i = j
      · simp only [hij, eq_self_iff_true, if_true]
        have hstep : runsOf (PElem.run t :: keepMerged j t rest (j + 1)) =
            t :: runsOf (keepMerged j t rest (j + 1)) := by
          simp [runsOf, List.filterMap_cons]
        rw [hstep, ih (j + 1), if_neg (by omega), if_pos (by rw [hlen]; omega)]
      · rw [if_neg hij, ih (i + 1)]
        by_cases hc : i + 1 ≤ j ∧ j < i + 1 + (runsOf rest).length
        · rw [if_pos hc, if_pos (by rw [hlen]; omega)]
        · rw [if_neg hc, if_neg (by rw [hlen]; omega)]

lemma runsOf_mergeElems (p : List PElem) (h : 2 ≤ (runsOf p).length) :
    runsOf (mergeElems p) = [paraText p] := by
  rw [mergeElems, runsOf_keepMerged]
  rw [if_pos]
  constructor
  · omega
  · have := bestRunIdx_lt (runsOf p) (by intro h0; rw [h0] at h; simp at h)
    omega

/-- C9 counterexample: on a paragraph holding one run "a" followed by one
field element with text "2", `runs_merge` returns the single run unchanged,
whose text "a" differs from the paragraph's full concatenated text "a2". -/
theorem runs_merge_counterexample :
    (runs_merge [PElem.run "a", PElem.fld "2"]).1 = some "a" ∧
    paraText [PElem.run "a", PElem.fld "2"] = "a2" ∧
    ("a" : String) ≠ "a2" := by
  refine ⟨?_, ?_, ?_⟩ <;> decide

/-- C9 amended: `runs_merge` returns None exactly when the paragraph, after
converting field-code elements to runs, contains no runs.  When the
paragraph itself holds at least two runs, the returned run's text is the
paragraph's full concatenated text and afterwards the paragraph holds
exactly that one run.  A single found run is returned with its own text
(which can differ from the paragraph's full text when field elements are
present), and whenever the paragraph holds no runs the conversion works on
a detached copy, so the paragraph itself is left unchanged. -/
theorem runs_merge_behaviour :
    (∀ p : List PElem, ((runs_merge p).1 = none ↔ runsOf (p.map fldToRun) = [])) ∧
    (∀ p : List PElem, 2 ≤ (runsOf p).length →
      (runs_merge p).1 = some (paraText p) ∧
      runsOf (runs_merge p).2 = [paraText p]) ∧
    (∀ (p : List PElem) (x : String), runsOf p = [x] → runs_merge p = (some x, p)) ∧
    (∀ p : List PElem, runsOf p = [] → (runs_merge p).2 = p) := by
  refine ⟨?_, ?_, ?_, ?_⟩
  · intro p
    cases hr : runsOf p with
    | nil =>
      cases hc : runsOf (p.map fldToRun) with
      | nil => simp [runs_merge, hr, hc]
      | cons x xs =>
        cases xs with
        | nil => simp [runs_merge, hr, hc]
        | cons y ys => simp [runs_merge, hr, hc]
    | cons x xs =>
      have hp : p ≠ [] := runsOf_ne_nil_of_runs p (by rw [hr]; simp)
      cases xs with
      | nil => simp [runs_merge, hr, runsOf_map_fldToRun, hp]
      | cons y ys => simp [runs_merge, hr, runsOf_map_fldToRun, hp]
  · intro p h
    cases hr : runsOf p with
    | nil => rw [hr] at h; simp at h
    | cons x xs =>
      cases xs with
      | nil => rw [hr] at h; simp at h
      | cons y ys =>
        have hm := runsOf_mergeElems p h
        constructor
        · simp [runs_merge, hr]
        · simp [runs_merge, hr, hm]
  · intro p x hr
    simp [runs_merge, hr]
  · intro p hr
    cases hc : runsOf (p.map fldToRun) with
    | nil => simp [runs_merge, hr, hc]
    | cons x xs =>
      cases xs with
      | nil => simp [runs_merge, hr, hc]
      | cons y ys => simp [runs_merge, hr, hc]

/-- Witness for the amended C9: a two-run paragraph is merged into one run
carrying the full text; a one-run paragraph is returned as is; a paragraph
of one field element is left unchanged. -/
theorem runs_merge_behaviour_witness :
    ((runs_merge [PElem.run "ab", PElem.run "c"]).1 =
        some (paraText [PElem.run "ab", PElem.run "c"]) ∧
      runsOf (runs_merge [PElem.run "ab", PElem.run "c"]).2 =
        [paraText [PElem.run "ab", PElem.run "c"]]) ∧
    runs_merge [PElem.run "x"] = (some "x", [PElem.run "x"]) ∧
    (runs_merge [PElem.fld "5"]).2 = [PElem.fld "5"] :=
  ⟨runs_merge_behaviour.2.1 _ (by decide),
    runs_merge_behaviour.2.2.1 _ "x" (by decide),
    runs_merge_behaviour.2.2.2 _ (by decide)⟩

/-- C3: for every group with a nonempty child list and a positive-extent
tight local union (widths and heights being nonnegative throughout, as the
`BoundingBox` invariant requires), the tight union of the absolute child
boxes computed by `parse_groupshape` — in exact rational arithmetic —
equals the group's declared absolute bounding box: the normalization
formula round-trips. -/
theorem parse_groupshape_roundtrip (g : GroupShape) (hne : g.shapes ≠ [])
    (hw : 0 < (tightUnion g.shapes).width) (hh : 0 < (tightUnion g.shapes).height)
    (hgw : 0 ≤ g.width) (hgh : 0 ≤ g.height) :
    ∃ bs, parse_groupshapeQ g = .ok bs ∧ tightUnion bs = groupAbsBox g :=
  ⟨_, parse_groupshapeQ_eq_spec g hne (ne_of_gt hw) (ne_of_gt hh),
    tightUnion_reproject g.shapes (groupAbsBox g) hne hw hh hgw hgh⟩

/-- Witness for C3 at the spec's worked example. -/
theorem parse_groupshape_roundtrip_witness :
    ∃ bs, parse_groupshapeQ ⟨10, 10, 400, 100, [⟨0, 0, 100, 50⟩, ⟨100, 0, 100, 50⟩]⟩ =
        .ok bs ∧
      tightUnion bs = groupAbsBox ⟨10, 10, 400, 100, [⟨0, 0, 100, 50⟩, ⟨100, 0, 100, 50⟩]⟩ :=
  parse_groupshape_roundtrip _ (by decide)
    (by norm_num [tightUnion, listMin1, listMax1, min_def, max_def])
    (by norm_num [tightUnion, listMin1, listMax1, min_def, max_def])
    (by norm_num) (by norm_num)
